import Mathlib

/-!
Verification of the PolyArt image-to-polygon pipeline
(`src/components/PolygonArtCanvas.tsx`).

The pipeline is embedded shallowly:
* image-space coordinates are exact rationals (`ℚ`), modelling the
  JavaScript floating-point numbers;
* the RGBA pixel buffer is a function `ℕ → ℕ` (a `Uint8ClampedArray` is a
  byte array, so theorems assume values `≤ 255` where needed);
* the `Set<string>` of `toFixed(1)` keys is a list of exact rounded pairs;
* the Delaunator library (an external dependency, not part of this
  repository) is an oracle `List ℕ` of triangle indices, resp. a function
  from point lists to index lists for the refinement loop;
* `Math.sqrt` is `Real.sqrt`, so edge lengths and Heron areas live in `ℝ`;
  the comparisons the code performs on them are proved decidable by
  reduction to rational comparisons of their squares.
-/

namespace PolyArt

/-- A 2D point in image space, `type Point = [number, number]`. -/
abbrev Pt := ℚ × ℚ

/-! ## Point identity / deduplication (`addPoint`, lines 129–136) -/

/-- Exact model of JavaScript `x.toFixed(1)` as the integer `10·x` rounded
to the nearest integer, ties toward `+∞` (ECMAScript picks the larger
candidate on ties).  Two coordinates get the same `toFixed(1)` string iff
they get the same `fixed1` value (coordinates in this pipeline are
nonnegative, so the `"-0.0"` string corner case never arises). -/
def fixed1 (x : ℚ) : ℤ := ⌊10 * x + 1 / 2⌋

/-- The deduplication key of a point: both coordinates rounded to one
decimal place, modelling the template string key of `addPoint`. -/
def pointKey (p : Pt) : ℤ × ℤ := (fixed1 p.1, fixed1 p.2)

/-- The sampler's accumulated state: the `pointsMap` key set and the
`points` array (insertion order preserved). -/
structure PtState where
  keys : List (ℤ × ℤ)
  points : List Pt
deriving DecidableEq

/-- The `addPoint` closure: insert a point unless its key is present. -/
def addPoint (st : PtState) (p : Pt) : PtState :=
  if pointKey p ∈ st.keys then st
  else ⟨st.keys ++ [pointKey p], st.points ++ [p]⟩

/-- The four corner insertions that open `processImage` (lines 139–142),
folded over the empty initial state in call order. -/
def cornersState (width height : ℕ) : PtState :=
  [((0 : ℚ), (0 : ℚ)), ((width : ℚ), 0), (0, (height : ℚ)),
    ((width : ℚ), (height : ℚ))].foldl addPoint ⟨[], []⟩

/-! ## Border lattice (`processImage`, lines 144–154) -/

/-- Border lattice spacing: `Math.max(10, Math.floor(100 - q * 90))` with
`q = quality / 100`. -/
def borderStep (quality : ℚ) : ℤ := max 10 ⌊100 - quality / 100 * 90⌋

/-- Index sequence of `for (let i = 0; i <= limit; i += step)`:
the multiples of `step` that are `≤ limit`. -/
def loopIdx (limit s : ℕ) : List ℕ := (List.range (limit / s + 1)).map (· * s)

/-- The sequence of `addPoint` arguments produced by the two border
lattice loops, in program order. -/
def latticeCalls (width height : ℕ) (quality : ℚ) : List Pt :=
  let s := (borderStep quality).toNat
  ((loopIdx width s).flatMap fun i => [((i : ℚ), 0), ((i : ℚ), (height : ℚ))]) ++
    ((loopIdx height s).flatMap fun i => [(0, (i : ℚ)), ((width : ℚ), (i : ℚ))])

/-- Sampler state after the corners and (when `quality > 0`) the border
lattice. -/
def samplerBase (width height : ℕ) (quality : ℚ) : PtState :=
  if 0 < quality then
    (latticeCalls width height quality).foldl addPoint (cornersState width height)
  else cornersState width height

/-! ## Color sampler (`getMedianColor`, lines 20–55) -/

/-- Clamp-and-floor of one sample coordinate:
`Math.max(0, Math.min(limit - 1, Math.floor(v)))`. -/
def clampFloor (limit : ℕ) (v : ℚ) : ℤ := max 0 (min ((limit : ℤ) - 1) ⌊v⌋)

/-- Buffer index of a sample location: `(safeY * width + safeX) * 4`. -/
def sampleIdx (width height : ℕ) (s : Pt) : ℤ :=
  (clampFloor height s.2 * width + clampFloor width s.1) * 4

/-- The five interior sample locations: centroid, the three
vertex-weighted blends `(2·pa + pb + pc) / 4`, and the centroid again. -/
def triSamples (p1 p2 p3 : Pt) : List Pt :=
  let cx := (p1.1 + p2.1 + p3.1) / 3
  let cy := (p1.2 + p2.2 + p3.2) / 3
  [(cx, cy),
   ((2 * p1.1 + p2.1 + p3.1) / 4, (2 * p1.2 + p2.2 + p3.2) / 4),
   ((p1.1 + 2 * p2.1 + p3.1) / 4, (p1.2 + 2 * p2.2 + p3.2) / 4),
   ((p1.1 + p2.1 + 2 * p3.1) / 4, (p1.2 + p2.2 + 2 * p3.2) / 4),
   (cx, cy)]

/-- The five channel reads for channel offset `c` (`0`/`1`/`2` for
R/G/B): `data[idx + c]` at each clamped sample index. -/
def chanReads (c : ℕ) (p1 p2 p3 : Pt) (data : ℕ → ℕ) (width height : ℕ) : List ℕ :=
  (triSamples p1 p2 p3).map fun s => data ((sampleIdx width height s).toNat + c)

/-- Result record of `getMedianColor`. -/
structure MedColor where
  r : ℕ
  g : ℕ
  b : ℕ
  cx : ℤ
  cy : ℤ
deriving DecidableEq

/-- The per-channel median of the five sorted channel reads (`rs[2]` after
an ascending sort), plus the floored centroid. -/
def getMedianColor (p1 p2 p3 : Pt) (data : ℕ → ℕ) (width height : ℕ) : MedColor :=
  { r := (List.insertionSort (· ≤ ·) (chanReads 0 p1 p2 p3 data width height)).getD 2 0
    g := (List.insertionSort (· ≤ ·) (chanReads 1 p1 p2 p3 data width height)).getD 2 0
    b := (List.insertionSort (· ≤ ·) (chanReads 2 p1 p2 p3 data width height)).getD 2 0
    cx := ⌊(p1.1 + p2.1 + p3.1) / 3⌋
    cy := ⌊(p1.2 + p2.2 + p3.2) / 3⌋ }

/-! ## Sobel edge field (`processImage`, lines 158–182) -/

/-- Luma of the (blurred) pixel at `(xx, yy)`:
`data[idx]*0.299 + data[idx+1]*0.587 + data[idx+2]*0.114` with
`idx = (yy*width + xx)*4`.  The buffer is a channel function `ℕ → ℚ`. -/
def getGray (data : ℕ → ℚ) (width xx yy : ℕ) : ℚ :=
  data ((yy * width + xx) * 4) * 0.299 + data ((yy * width + xx) * 4 + 1) * 0.587 +
    data ((yy * width + xx) * 4 + 2) * 0.114

/-- Horizontal Sobel response at interior pixel `(x, y)` (`x, y ≥ 1`). -/
def sobelGx (data : ℕ → ℚ) (width x y : ℕ) : ℚ :=
  -1 * getGray data width (x - 1) (y - 1) + 1 * getGray data width (x + 1) (y - 1) +
    -2 * getGray data width (x - 1) y + 2 * getGray data width (x + 1) y +
    -1 * getGray data width (x - 1) (y + 1) + 1 * getGray data width (x + 1) (y + 1)

/-- Vertical Sobel response at interior pixel `(x, y)` (`x, y ≥ 1`). -/
def sobelGy (data : ℕ → ℚ) (width x y : ℕ) : ℚ :=
  -1 * getGray data width (x - 1) (y - 1) + -2 * getGray data width x (y - 1) +
    -1 * getGray data width (x + 1) (y - 1) +
    1 * getGray data width (x - 1) (y + 1) + 2 * getGray data width x (y + 1) +
    1 * getGray data width (x + 1) (y + 1)

/-- Gradient magnitude `Math.sqrt(gx*gx + gy*gy)` stored at `(x, y)`. -/
noncomputable def sobelGrad (data : ℕ → ℚ) (width x y : ℕ) : ℝ :=
  Real.sqrt ((sobelGx data width x y * sobelGx data width x y +
    sobelGy data width x y * sobelGy data width x y : ℚ))

/-- Index list `1, …, n - 2` of the interior loop
`for (let v = 1; v < n - 1; v++)`. -/
def innerRange (n : ℕ) : List ℕ := (List.range (n - 2)).map (· + 1)

/-- The `sobelData` array: a `Float32Array(width*height)` initialized to
zero, then `sobelData[y*width + x] = grad` for every interior pixel, in
loop order.  Represented as an update fold over the flat-index function. -/
noncomputable def sobelData (data : ℕ → ℚ) (width height : ℕ) : ℕ → ℝ :=
  (innerRange height).foldl
    (fun arr y =>
      (innerRange width).foldl
        (fun arr x => Function.update arr (y * width + x) (sobelGrad data width x y)) arr)
    (fun _ => 0)

/-! ## Mesh refinement (`processImage`, lines 243–296)

`Delaunator.from(points).triangles` is an external library call; it is
modelled as an oracle `T : List Pt → List ℕ` producing the flat triangle
index array that the loop walks three entries at a time. -/

/-- Squared Euclidean distance of two points (exact, rational). -/
def dist2 (p q : Pt) : ℚ := (p.1 - q.1) ^ 2 + (p.2 - q.2) ^ 2

/-- Edge length `Math.hypot(dx, dy) = sqrt(dx² + dy²)` as a real. -/
noncomputable def elen (p q : Pt) : ℝ := Real.sqrt ((dist2 p q : ℚ))

/-- Midpoint of two points. -/
def midPt (p q : Pt) : Pt := ((p.1 + q.1) / 2, (p.2 + q.2) / 2)

/-- Heron area of the triangle as computed by the code:
`sqrt(max(0, s*(s-l1)*(s-l2)*(s-l3)))` with `s` the semiperimeter of the
three `hypot` edge lengths. -/
noncomputable def heronArea (p1 p2 p3 : Pt) : ℝ :=
  let l1 := elen p1 p2
  let l2 := elen p2 p3
  let l3 := elen p3 p1
  let s := (l1 + l2 + l3) / 2
  Real.sqrt (max 0 (s * (s - l1) * (s - l2) * (s - l3)))

/-- Sixteen times the squared (clamped) Heron area, expressed as a
polynomial in the squared edge lengths `a, b, c`; rational and exact. -/
def heron16 (p1 p2 p3 : Pt) : ℚ :=
  let a := dist2 p1 p2
  let b := dist2 p2 p3
  let c := dist2 p3 p1
  max 0 (2 * (a * b + b * c + c * a) - (a ^ 2 + b ^ 2 + c ^ 2))

/-- The split condition of the refinement loop, exactly as the code
states it over real-valued lengths and area:
`(maxL / max(1, minL) > 4 && area > 50) || area > width*height*0.04`. -/
def splitCond (width height : ℕ) (p1 p2 p3 : Pt) : Prop :=
  let l1 := elen p1 p2
  let l2 := elen p2 p3
  let l3 := elen p3 p1
  let maxL := max l1 (max l2 l3)
  let minL := min l1 (min l2 l3)
  (maxL / max 1 minL > 4 ∧ heronArea p1 p2 p3 > 50) ∨
    heronArea p1 p2 p3 > (width : ℝ) * (height : ℝ) * 0.04

/-- Decidable rational form of `splitCond`, comparing squares. -/
def splitCondQ (width height : ℕ) (p1 p2 p3 : Pt) : Prop :=
  let a := dist2 p1 p2
  let b := dist2 p2 p3
  let c := dist2 p3 p1
  let maxA := max a (max b c)
  let minA := min a (min b c)
  (maxA > 16 * max 1 minA ∧ heron16 p1 p2 p3 > 16 * 50 ^ 2) ∨
    heron16 p1 p2 p3 > 16 * ((width : ℚ) * (height : ℚ) * (4 / 100)) ^ 2

instance (width height : ℕ) (p1 p2 p3 : Pt) :
    Decidable (splitCondQ width height p1 p2 p3) := by
  unfold splitCondQ; infer_instance

theorem sqrt_mono : Monotone Real.sqrt := fun _ _ h => Real.sqrt_le_sqrt h

theorem dist2_nonneg (p q : Pt) : 0 ≤ dist2 p q :=
  add_nonneg (sq_nonneg _) (sq_nonneg _)

theorem elen_eq (p q : Pt) : elen p q = Real.sqrt ((dist2 p q : ℚ)) := rfl

/-- The quartic Heron expansion: sixteen times the unclamped radicand of
`heronArea` equals the polynomial `2(ab+bc+ca) - (a²+b²+c²)` in the
squared edge lengths. -/
theorem heron_expand (p1 p2 p3 : Pt) :
    16 * (((elen p1 p2 + elen p2 p3 + elen p3 p1) / 2) *
      (((elen p1 p2 + elen p2 p3 + elen p3 p1) / 2) - elen p1 p2) *
      (((elen p1 p2 + elen p2 p3 + elen p3 p1) / 2) - elen p2 p3) *
      (((elen p1 p2 + elen p2 p3 + elen p3 p1) / 2) - elen p3 p1)) =
    2 * (((dist2 p1 p2 : ℚ) : ℝ) * ((dist2 p2 p3 : ℚ) : ℝ) +
        ((dist2 p2 p3 : ℚ) : ℝ) * ((dist2 p3 p1 : ℚ) : ℝ) +
        ((dist2 p3 p1 : ℚ) : ℝ) * ((dist2 p1 p2 : ℚ) : ℝ)) -
      (((dist2 p1 p2 : ℚ) : ℝ) ^ 2 + ((dist2 p2 p3 : ℚ) : ℝ) ^ 2 +
        ((dist2 p3 p1 : ℚ) : ℝ) ^ 2) := by
  have ha : ((dist2 p1 p2 : ℚ) : ℝ) = elen p1 p2 ^ 2 := by
    rw [elen_eq, Real.sq_sqrt (by exact_mod_cast dist2_nonneg p1 p2)]
  have hb : ((dist2 p2 p3 : ℚ) : ℝ) = elen p2 p3 ^ 2 := by
    rw [elen_eq, Real.sq_sqrt (by exact_mod_cast dist2_nonneg p2 p3)]
  have hc : ((dist2 p3 p1 : ℚ) : ℝ) = elen p3 p1 ^ 2 := by
    rw [elen_eq, Real.sq_sqrt (by exact_mod_cast dist2_nonneg p3 p1)]
  rw [ha, hb, hc]; ring

/-- Sixteen times the squared clamped Heron area is `heron16`. -/
theorem heronArea_sq (p1 p2 p3 : Pt) :
    16 * heronArea p1 p2 p3 ^ 2 = ((heron16 p1 p2 p3 : ℚ) : ℝ) := by
  have hm : (0 : ℝ) ≤ max 0 (((elen p1 p2 + elen p2 p3 + elen p3 p1) / 2) *
      (((elen p1 p2 + elen p2 p3 + elen p3 p1) / 2) - elen p1 p2) *
      (((elen p1 p2 + elen p2 p3 + elen p3 p1) / 2) - elen p2 p3) *
      (((elen p1 p2 + elen p2 p3 + elen p3 p1) / 2) - elen p3 p1)) := le_max_left _ _
  have h1 : heronArea p1 p2 p3 ^ 2 = max 0 (((elen p1 p2 + elen p2 p3 + elen p3 p1) / 2) *
      (((elen p1 p2 + elen p2 p3 + elen p3 p1) / 2) - elen p1 p2) *
      (((elen p1 p2 + elen p2 p3 + elen p3 p1) / 2) - elen p2 p3) *
      (((elen p1 p2 + elen p2 p3 + elen p3 p1) / 2) - elen p3 p1)) := by
    unfold heronArea
    exact Real.sq_sqrt hm
  rw [h1, show (16 : ℝ) * max 0 (((elen p1 p2 + elen p2 p3 + elen p3 p1) / 2) *
      (((elen p1 p2 + elen p2 p3 + elen p3 p1) / 2) - elen p1 p2) *
      (((elen p1 p2 + elen p2 p3 + elen p3 p1) / 2) - elen p2 p3) *
      (((elen p1 p2 + elen p2 p3 + elen p3 p1) / 2) - elen p3 p1)) =
      max (16 * 0) (16 * (((elen p1 p2 + elen p2 p3 + elen p3 p1) / 2) *
      (((elen p1 p2 + elen p2 p3 + elen p3 p1) / 2) - elen p1 p2) *
      (((elen p1 p2 + elen p2 p3 + elen p3 p1) / 2) - elen p2 p3) *
      (((elen p1 p2 + elen p2 p3 + elen p3 p1) / 2) - elen p3 p1))) from
      (mul_max_of_nonneg _ _ (by norm_num)), heron_expand p1 p2 p3]
  unfold heron16 dist2
  push_cast
  ring_nf

/-- Real comparison `50 < heronArea` reduces to a rational comparison of
`heron16`. -/
theorem heronArea_gt_iff (p1 p2 p3 : Pt) (c : ℚ) (hc : 0 ≤ c) :
    ((c : ℝ) < heronArea p1 p2 p3 ↔ 16 * c ^ 2 < heron16 p1 p2 p3) := by
  have h1 : ((c : ℝ) < heronArea p1 p2 p3 ↔ (c : ℝ) ^ 2 < heronArea p1 p2 p3 ^ 2) := by
    constructor
    · intro h
      have hc' : (0 : ℝ) ≤ c := by exact_mod_cast hc
      nlinarith [hc']
    · intro h
      have h0 : (0 : ℝ) ≤ heronArea p1 p2 p3 := Real.sqrt_nonneg _
      nlinarith
  rw [h1]
  constructor
  · intro h
    have h16 : (16 : ℝ) * (c : ℝ) ^ 2 < 16 * heronArea p1 p2 p3 ^ 2 := by linarith
    rw [heronArea_sq] at h16
    exact_mod_cast h16
  · intro h
    have h16 : ((16 * c ^ 2 : ℚ) : ℝ) < ((heron16 p1 p2 p3 : ℚ) : ℝ) := by exact_mod_cast h
    rw [← heronArea_sq] at h16
    push_cast at h16
    nlinarith

/-- The real-valued maximum edge length is the square root of the
rational maximum of squared lengths. -/
theorem maxEdge_sqrt (p1 p2 p3 : Pt) :
    max (elen p1 p2) (max (elen p2 p3) (elen p3 p1)) =
      Real.sqrt ((max (dist2 p1 p2) (max (dist2 p2 p3) (dist2 p3 p1)) : ℚ)) := by
  rw [elen_eq, elen_eq, elen_eq]
  rw [show ((max (dist2 p1 p2) (max (dist2 p2 p3) (dist2 p3 p1)) : ℚ) : ℝ) =
    max ((dist2 p1 p2 : ℚ) : ℝ) (max ((dist2 p2 p3 : ℚ) : ℝ) ((dist2 p3 p1 : ℚ) : ℝ)) by
      push_cast; rfl]
  rw [sqrt_mono.map_max, sqrt_mono.map_max]

/-- The real-valued minimum edge length is the square root of the
rational minimum of squared lengths. -/
theorem minEdge_sqrt (p1 p2 p3 : Pt) :
    min (elen p1 p2) (min (elen p2 p3) (elen p3 p1)) =
      Real.sqrt ((min (dist2 p1 p2) (min (dist2 p2 p3) (dist2 p3 p1)) : ℚ)) := by
  rw [elen_eq, elen_eq, elen_eq]
  rw [show ((min (dist2 p1 p2) (min (dist2 p2 p3) (dist2 p3 p1)) : ℚ) : ℝ) =
    min ((dist2 p1 p2 : ℚ) : ℝ) (min ((dist2 p2 p3 : ℚ) : ℝ) ((dist2 p3 p1 : ℚ) : ℝ)) by
      push_cast; rfl]
  rw [sqrt_mono.map_min, sqrt_mono.map_min]

/-- Comparison of a `sqrt`-quotient with `4` reduces to a rational
comparison of the squares: `√M / max(1, √m) > 4  ↔  M > 16·max(1, m)`. -/
theorem sqrt_aspect_iff (M m : ℚ) :
    (4 < Real.sqrt ((M : ℚ)) / max 1 (Real.sqrt ((m : ℚ))) ↔ 16 * max 1 m < M) := by
  have hden : max (1 : ℝ) (Real.sqrt ((m : ℚ))) = Real.sqrt ((max 1 m : ℚ)) := by
    rw [show ((max 1 m : ℚ) : ℝ) = max ((1 : ℚ) : ℝ) ((m : ℚ) : ℝ) from by push_cast; rfl,
      sqrt_mono.map_max]
    norm_num
  have hdenpos : (0 : ℝ) < Real.sqrt ((max 1 m : ℚ)) := by
    apply Real.sqrt_pos.mpr
    exact_mod_cast lt_of_lt_of_le one_pos (le_max_left (1 : ℚ) m)
  rw [hden, lt_div_iff₀ hdenpos]
  have h4 : (4 : ℝ) * Real.sqrt ((max 1 m : ℚ)) = Real.sqrt ((16 * max 1 m : ℚ)) := by
    rw [show ((16 * max 1 m : ℚ) : ℝ) = 16 * ((max 1 m : ℚ) : ℝ) from by push_cast; rfl,
      Real.sqrt_mul (by norm_num : (0 : ℝ) ≤ 16),
      show Real.sqrt 16 = 4 from by
        rw [show (16 : ℝ) = 4 ^ 2 by norm_num, Real.sqrt_sq (by norm_num : (0 : ℝ) ≤ 4)]]
  have h16 : (0 : ℝ) ≤ ((16 * max 1 m : ℚ) : ℝ) := by
    have : (0 : ℚ) ≤ 16 * max 1 m :=
      mul_nonneg (by norm_num) (le_trans zero_le_one (le_max_left 1 m))
    exact_mod_cast this
  rw [h4, Real.sqrt_lt_sqrt_iff h16]
  exact ⟨fun h => by exact_mod_cast h, fun h => by exact_mod_cast h⟩

/-- The code's aspect test `maxL / max(1, minL) > 4` reduces to the
rational comparison `maxA > 16 * max 1 minA` on squared lengths. -/
theorem sharp_iff (p1 p2 p3 : Pt) :
    (4 < max (elen p1 p2) (max (elen p2 p3) (elen p3 p1)) /
        max 1 (min (elen p1 p2) (min (elen p2 p3) (elen p3 p1))) ↔
      16 * max 1 (min (dist2 p1 p2) (min (dist2 p2 p3) (dist2 p3 p1))) <
        max (dist2 p1 p2) (max (dist2 p2 p3) (dist2 p3 p1))) := by
  rw [maxEdge_sqrt, minEdge_sqrt]
  exact sqrt_aspect_iff _ _

/-- The split condition of the refinement loop, as the code writes it
over reals, is equivalent to its executable rational form. -/
theorem splitCond_iff (width height : ℕ) (p1 p2 p3 : Pt) :
    splitCond width height p1 p2 p3 ↔ splitCondQ width height p1 p2 p3 := by
  unfold splitCond splitCondQ
  have h50 := heronArea_gt_iff p1 p2 p3 50 (by norm_num)
  have harea := heronArea_gt_iff p1 p2 p3 ((width : ℚ) * (height : ℚ) * (4 / 100))
    (by positivity)
  have hcast : ((((width : ℚ) * (height : ℚ) * (4 / 100) : ℚ)) : ℝ) =
      (width : ℝ) * (height : ℝ) * 0.04 := by push_cast; norm_num
  rw [hcast] at harea
  have h50' : ((50 : ℚ) : ℝ) = (50 : ℝ) := by norm_num
  rw [h50'] at h50
  constructor
  · rintro (⟨hs, ha⟩ | hl)
    · exact Or.inl ⟨(sharp_iff p1 p2 p3).mp hs, h50.mp ha⟩
    · exact Or.inr (harea.mp hl)
  · rintro (⟨hs, ha⟩ | hl)
    · exact Or.inl ⟨(sharp_iff p1 p2 p3).mpr hs, h50.mpr ha⟩
    · exact Or.inr (harea.mpr hl)

instance splitCondDec (width height : ℕ) (p1 p2 p3 : Pt) :
    Decidable (splitCond width height p1 p2 p3) :=
  decidable_of_iff _ (splitCond_iff width height p1 p2 p3).symm

/-- Equality of two real edge lengths is equality of squared lengths. -/
theorem elen_inj (p q r s : Pt) : (elen p q = elen r s ↔ dist2 p q = dist2 r s) := by
  rw [elen_eq, elen_eq,
    Real.sqrt_inj (by exact_mod_cast dist2_nonneg p q) (by exact_mod_cast dist2_nonneg r s)]
  exact ⟨fun h => by exact_mod_cast h, fun h => by exact_mod_cast h⟩

/-- The code's tie test `maxL === l1` reduces to a rational test. -/
theorem maxEdge_eq_iff (p1 p2 p3 : Pt) (q r : Pt) :
    (max (elen p1 p2) (max (elen p2 p3) (elen p3 p1)) = elen q r ↔
      max (dist2 p1 p2) (max (dist2 p2 p3) (dist2 p3 p1)) = dist2 q r) := by
  rw [maxEdge_sqrt, elen_eq]
  have h1 : (0 : ℚ) ≤ max (dist2 p1 p2) (max (dist2 p2 p3) (dist2 p3 p1)) :=
    le_trans (dist2_nonneg p1 p2) (le_max_left _ _)
  rw [Real.sqrt_inj (by exact_mod_cast h1) (by exact_mod_cast dist2_nonneg q r)]
  exact ⟨fun h => by exact_mod_cast h, fun h => by exact_mod_cast h⟩

instance maxEdgeDec (p1 p2 p3 q r : Pt) :
    Decidable (max (elen p1 p2) (max (elen p2 p3) (elen p3 p1)) = elen q r) :=
  decidable_of_iff _ (maxEdge_eq_iff p1 p2 p3 q r).symm

/-- The midpoint the split inserts: the midpoint of the longest edge,
resolved by the code's `maxL === l1 / l2 / else` cascade. -/
def longestMid (p1 p2 p3 : Pt) : Pt :=
  if max (elen p1 p2) (max (elen p2 p3) (elen p3 p1)) = elen p1 p2 then midPt p1 p2
  else if max (elen p1 p2) (max (elen p2 p3) (elen p3 p1)) = elen p2 p3 then midPt p2 p3
  else midPt p3 p1

/-- One iteration of the inner triangle loop of a refinement pass: read
the three points (skipping missing indices), test the split condition,
and insert the longest-edge midpoint guarded by the deduplication key.
`acc.2` counts the insertions (`added`). -/
def refineTri (width height : ℕ) (acc : PtState × ℕ) (t : ℕ × ℕ × ℕ) : PtState × ℕ :=
  match acc.1.points[t.1]?, acc.1.points[t.2.1]?, acc.1.points[t.2.2]? with
  | some p1, some p2, some p3 =>
    if splitCond width height p1 p2 p3 then
      if pointKey (longestMid p1 p2 p3) ∈ acc.1.keys then acc
      else (⟨acc.1.keys ++ [pointKey (longestMid p1 p2 p3)],
        acc.1.points ++ [longestMid p1 p2 p3]⟩, acc.2 + 1)
    else acc
  | _, _, _ => acc

/-- Split the flat triangle index array into triples, as the loop
`for (i = 0; i < trianglesData.length; i += 3)` walks it (a trailing
partial chunk reads an out-of-range index and is skipped). -/
def triChunks : List ℕ → List (ℕ × ℕ × ℕ)
  | a :: b :: c :: rest => (a, b, c) :: triChunks rest
  | _ => []

/-- One refinement pass over a triangle index array. -/
def refinePass (width height : ℕ) (tris : List ℕ) (st : PtState) : PtState × ℕ :=
  (triChunks tris).foldl (refineTri width height) (st, 0)

/-- The refinement loop: up to `n` passes, each re-triangulating the
current point set through the oracle `T` and stopping early when a pass
inserts nothing (`if (added === 0) break`). -/
def refineLoop (width height : ℕ) (T : List Pt → List ℕ) : ℕ → PtState → PtState
  | 0, st => st
  | n + 1, st =>
    let r := refinePass width height (T st.points) st
    if r.2 = 0 then r.1 else refineLoop width height T n r.1

/-- The full refinement stage, `refinementPasses = 2`. -/
def refine (width height : ℕ) (T : List Pt → List ℕ) (st : PtState) : PtState :=
  refineLoop width height T 2 st

/-! ## Animation sequencer (`startAnimation` / `animate`, lines 346–555)

The sequencer is a pure function of the elapsed time: each
`requestAnimationFrame` tick clears the canvas, dispatches on `elapsed`
against the cumulative phase durations, emits drawing commands, and
either schedules the next frame or (in the terminal branch) returns.
Canvas drawing operations are reified as a command list. -/

/-- An RGB color triple (the code carries colors as `rgb(r,g,b)`
strings; the payload is the triple). -/
abbrev Rgb := ℕ × ℕ × ℕ

/-- A colored triangle as produced by `runTriangulation`. -/
structure ColoredTri where
  points : Pt × Pt × Pt
  color : Rgb
  center : ℤ × ℤ
deriving DecidableEq

/-- A stroke/fill color: opaque `rgb` or an `rgba` with alpha. -/
inductive CColor
  | rgb (r g b : ℕ)
  | rgba (r g b : ℕ) (a : ℚ)
deriving DecidableEq

/-- Reified canvas drawing commands issued by one `animate` tick. -/
inductive DrawCmd
  | clear
  | fillRect (c : CColor)
  | drawSource
  | sobelOverlay (alpha : ℚ)
  | dot (p : Pt) (radius : ℚ) (c : CColor)
  | strokeTri (t : Pt × Pt × Pt) (c : CColor)
  | fillTri (t : Pt × Pt × Pt) (c : CColor)
deriving DecidableEq

/-- Output of one `animate(timestamp)` tick. -/
structure TickOut where
  status : String
  cmds : List DrawCmd
  progress : Option ℚ
  requestNext : Bool
deriving DecidableEq

/-- Total nominal duration of the six timed phases, scaled by the speed
multiplier. -/
def totalDuration (speed : ℚ) : ℚ :=
  1500 / speed + 2000 / speed + 2000 / speed + 2500 / speed + 2500 / speed + 2000 / speed

/-- Fill color of an opaque triangle, as `CColor`. -/
def asFill (c : Rgb) : CColor := CColor.rgb c.1 c.2.1 c.2.2

/-- The terminal frame: white background, then every triangle filled and
stroked with its own color. -/
def completeFrame (tris : List ColoredTri) : List DrawCmd :=
  [DrawCmd.clear, DrawCmd.fillRect (CColor.rgb 255 255 255)] ++
    tris.flatMap fun t => [DrawCmd.fillTri t.points (asFill t.color),
      DrawCmd.strokeTri t.points (asFill t.color)]

/-- One `animate` tick as a function of the elapsed time since
`startTime`.  `hasImg`/`hasSobel` model the nullable `img`/`sobel`
references; `points` and `tris` are the captured point and triangle
arrays. -/
def animTick (speed : ℚ) (hasImg hasSobel : Bool) (points : List Pt)
    (tris : List ColoredTri) (elapsed : ℚ) : TickOut :=
  let pImage := 1500 / speed
  let pSobel := 2000 / speed
  let pPoints := 2000 / speed
  let pLines := 2500 / speed
  let pColors := 2500 / speed
  let pFade := 2000 / speed
  if elapsed < pImage then
    { status := "원본 이미지"
      cmds := [DrawCmd.clear] ++ (if hasImg then [DrawCmd.drawSource] else [])
      progress := none
      requestNext := true }
  else if elapsed < pImage + pSobel then
    let progress := min 1 ((elapsed - pImage) / pSobel)
    { status := "윤곽선 추출 (Sobel Filter)"
      cmds := [DrawCmd.clear] ++
        (if hasSobel then [DrawCmd.fillRect (CColor.rgb 0 0 0),
          DrawCmd.sobelOverlay progress] else [])
      progress := some progress
      requestNext := true }
  else if elapsed < pImage + pSobel + pPoints then
    let progress := min 1 ((elapsed - (pImage + pSobel)) / pPoints)
    let visible := (⌊progress * points.length⌋).toNat
    { status := "특징점 추출"
      cmds := [DrawCmd.clear, DrawCmd.fillRect (CColor.rgb 0 0 0)] ++
        (if hasSobel then [DrawCmd.sobelOverlay 0.3] else []) ++
        (points.take visible).map fun p => DrawCmd.dot p 1 (CColor.rgb 0 255 204)
      progress := some progress
      requestNext := true }
  else if elapsed < pImage + pSobel + pPoints + pLines then
    let progress := min 1 ((elapsed - (pImage + pSobel + pPoints)) / pLines)
    let eased := 1 - (1 - progress) ^ 3
    let visible := (⌊eased * tris.length⌋).toNat
    { status := "델로네 삼각 분할 (Delaunay Triangulation)"
      cmds := [DrawCmd.clear, DrawCmd.fillRect (CColor.rgb 0 0 0)] ++
        (points.map fun p => DrawCmd.dot p 0.8 (CColor.rgba 0 255 204 (0.8 * (1 - progress)))) ++
        (tris.take visible).map fun t => DrawCmd.strokeTri t.points (CColor.rgba 0 255 204 0.3)
      progress := some progress
      requestNext := true }
  else if elapsed < pImage + pSobel + pPoints + pLines + pColors then
    let progress := min 1 ((elapsed - (pImage + pSobel + pPoints + pLines)) / pColors)
    let eased := 1 - (1 - progress) ^ 3
    let colored := (⌊eased * tris.length⌋).toNat
    { status := "색상 데이터 추출 및 채우기"
      cmds := [DrawCmd.clear, DrawCmd.fillRect (CColor.rgb 0 0 0)] ++
        tris.enum.flatMap fun it =>
          if it.1 < colored then
            [DrawCmd.fillTri it.2.points (asFill it.2.color),
              DrawCmd.strokeTri it.2.points (CColor.rgba 255 255 255 (0.1 * (1 - progress)))]
          else [DrawCmd.strokeTri it.2.points (CColor.rgba 0 255 204 0.3)]
      progress := some progress
      requestNext := true }
  else if elapsed < totalDuration speed then
    let progress := min 1 ((elapsed - (pImage + pSobel + pPoints + pLines + pColors)) / pFade)
    { status := "최종 렌더링"
      cmds := [DrawCmd.clear, DrawCmd.fillRect (CColor.rgb 255 255 255)] ++
        tris.flatMap fun t =>
          [DrawCmd.fillTri t.points (asFill t.color),
            DrawCmd.strokeTri t.points (asFill t.color)] ++
          (if progress < 1 then
            [DrawCmd.strokeTri t.points (CColor.rgba 255 255 255 (0.1 * (1 - progress)))]
          else [])
      progress := some progress
      requestNext := true }
  else
    { status := "완성"
      cmds := completeFrame tris
      progress := none
      requestNext := false }

/-! ## Spec-side definitions used for refinement comparisons -/

/-- Modelled from the spec: JavaScript `Math.round` (round half toward
`+∞`), used by the spec's border-lattice spacing `max(10, round(100 −
90q))`; the code instead uses `Math.floor`. -/
def specRound (x : ℚ) : ℤ := ⌊x + 1 / 2⌋

/-- Modelled from the spec: the border lattice the claim predicts, with
spacing `max(10, round(100 − 90q))` where `q = quality / 100`, points at
multiples of the spacing along all four edges. -/
def specLattice (width height : ℕ) (quality : ℚ) : List Pt :=
  let s := (max 10 (specRound (100 - 90 * (quality / 100)))).toNat
  ((loopIdx width s).flatMap fun i => [((i : ℚ), 0), ((i : ℚ), (height : ℚ))]) ++
    ((loopIdx height s).flatMap fun i => [(0, (i : ℚ)), ((width : ℚ), (i : ℚ))])

/-! ## C1 — color sampler median postcondition -/

theorem chanReads_length (c : ℕ) (p1 p2 p3 : Pt) (data : ℕ → ℕ) (width height : ℕ) :
    (chanReads c p1 p2 p3 data width height).length = 5 := by
  simp [chanReads, triSamples]

theorem median_getD_mem (l : List ℕ) (h : l.length = 5) :
    (List.insertionSort (· ≤ ·) l).getD 2 0 ∈ l := by
  have hlen : (List.insertionSort (· ≤ ·) l).length = 5 := by
    rw [List.length_insertionSort]; exact h
  have h2 : 2 < (List.insertionSort (· ≤ ·) l).length := by omega
  rw [List.getD_eq_getElem _ _ h2]
  exact (List.perm_insertionSort (· ≤ ·) l).mem_iff.mp (List.getElem_mem h2)

theorem chanReads_le (c : ℕ) (p1 p2 p3 : Pt) (data : ℕ → ℕ) (width height : ℕ)
    (hdata : ∀ i, data i ≤ 255) :
    ∀ x ∈ chanReads c p1 p2 p3 data width height, x ≤ 255 := by
  intro x hx
  simp only [chanReads, List.mem_map] at hx
  obtain ⟨s, _, rfl⟩ := hx
  exact hdata _

/-- C1.  Each channel returned by the color sampler lies in `[0, 255]`
and equals one of the five channel values read at the five sample
locations; specifically it is the middle element (index 2) of the five
sampled values sorted ascending, per channel independently. -/
theorem color_sampler_median (p1 p2 p3 : Pt) (data : ℕ → ℕ) (width height : ℕ)
    (hw : 1 ≤ width) (hh : 1 ≤ height) (hdata : ∀ i, data i ≤ 255) :
    (0 ≤ (getMedianColor p1 p2 p3 data width height).r ∧
      (getMedianColor p1 p2 p3 data width height).r ≤ 255 ∧
      (getMedianColor p1 p2 p3 data width height).r ∈ chanReads 0 p1 p2 p3 data width height ∧
      (getMedianColor p1 p2 p3 data width height).r =
        (List.insertionSort (· ≤ ·) (chanReads 0 p1 p2 p3 data width height)).getD 2 0) ∧
    (0 ≤ (getMedianColor p1 p2 p3 data width height).g ∧
      (getMedianColor p1 p2 p3 data width height).g ≤ 255 ∧
      (getMedianColor p1 p2 p3 data width height).g ∈ chanReads 1 p1 p2 p3 data width height ∧
      (getMedianColor p1 p2 p3 data width height).g =
        (List.insertionSort (· ≤ ·) (chanReads 1 p1 p2 p3 data width height)).getD 2 0) ∧
    (0 ≤ (getMedianColor p1 p2 p3 data width height).b ∧
      (getMedianColor p1 p2 p3 data width height).b ≤ 255 ∧
      (getMedianColor p1 p2 p3 data width height).b ∈ chanReads 2 p1 p2 p3 data width height ∧
      (getMedianColor p1 p2 p3 data width height).b =
        (List.insertionSort (· ≤ ·) (chanReads 2 p1 p2 p3 data width height)).getD 2 0) := by
  refine ⟨⟨Nat.zero_le _, ?_, ?_, rfl⟩, ⟨Nat.zero_le _, ?_, ?_, rfl⟩,
    ⟨Nat.zero_le _, ?_, ?_, rfl⟩⟩
  · exact chanReads_le 0 p1 p2 p3 data width height hdata _
      (median_getD_mem _ (chanReads_length 0 p1 p2 p3 data width height))
  · exact median_getD_mem _ (chanReads_length 0 p1 p2 p3 data width height)
  · exact chanReads_le 1 p1 p2 p3 data width height hdata _
      (median_getD_mem _ (chanReads_length 1 p1 p2 p3 data width height))
  · exact median_getD_mem _ (chanReads_length 1 p1 p2 p3 data width height)
  · exact chanReads_le 2 p1 p2 p3 data width height hdata _
      (median_getD_mem _ (chanReads_length 2 p1 p2 p3 data width height))
  · exact median_getD_mem _ (chanReads_length 2 p1 p2 p3 data width height)

/-- Witness for C1 at a concrete triangle, buffer and dimensions. -/
theorem color_sampler_median_witness :
    (0 ≤ (getMedianColor ((0 : ℚ), (0 : ℚ)) (1, 0) (0, 1) (fun _ => 7) 1 1).r ∧
      (getMedianColor ((0 : ℚ), (0 : ℚ)) (1, 0) (0, 1) (fun _ => 7) 1 1).r ≤ 255 ∧
      (getMedianColor ((0 : ℚ), (0 : ℚ)) (1, 0) (0, 1) (fun _ => 7) 1 1).r ∈
        chanReads 0 ((0 : ℚ), (0 : ℚ)) (1, 0) (0, 1) (fun _ => 7) 1 1 ∧
      (getMedianColor ((0 : ℚ), (0 : ℚ)) (1, 0) (0, 1) (fun _ => 7) 1 1).r =
        (List.insertionSort (· ≤ ·)
          (chanReads 0 ((0 : ℚ), (0 : ℚ)) (1, 0) (0, 1) (fun _ => 7) 1 1)).getD 2 0) ∧
    (0 ≤ (getMedianColor ((0 : ℚ), (0 : ℚ)) (1, 0) (0, 1) (fun _ => 7) 1 1).g ∧
      (getMedianColor ((0 : ℚ), (0 : ℚ)) (1, 0) (0, 1) (fun _ => 7) 1 1).g ≤ 255 ∧
      (getMedianColor ((0 : ℚ), (0 : ℚ)) (1, 0) (0, 1) (fun _ => 7) 1 1).g ∈
        chanReads 1 ((0 : ℚ), (0 : ℚ)) (1, 0) (0, 1) (fun _ => 7) 1 1 ∧
      (getMedianColor ((0 : ℚ), (0 : ℚ)) (1, 0) (0, 1) (fun _ => 7) 1 1).g =
        (List.insertionSort (· ≤ ·)
          (chanReads 1 ((0 : ℚ), (0 : ℚ)) (1, 0) (0, 1) (fun _ => 7) 1 1)).getD 2 0) ∧
    (0 ≤ (getMedianColor ((0 : ℚ), (0 : ℚ)) (1, 0) (0, 1) (fun _ => 7) 1 1).b ∧
      (getMedianColor ((0 : ℚ), (0 : ℚ)) (1, 0) (0, 1) (fun _ => 7) 1 1).b ≤ 255 ∧
      (getMedianColor ((0 : ℚ), (0 : ℚ)) (1, 0) (0, 1) (fun _ => 7) 1 1).b ∈
        chanReads 2 ((0 : ℚ), (0 : ℚ)) (1, 0) (0, 1) (fun _ => 7) 1 1 ∧
      (getMedianColor ((0 : ℚ), (0 : ℚ)) (1, 0) (0, 1) (fun _ => 7) 1 1).b =
        (List.insertionSort (· ≤ ·)
          (chanReads 2 ((0 : ℚ), (0 : ℚ)) (1, 0) (0, 1) (fun _ => 7) 1 1)).getD 2 0) :=
  color_sampler_median ((0 : ℚ), (0 : ℚ)) (1, 0) (0, 1) (fun _ => 7) 1 1
    (by decide) (by decide) (fun _ => (by decide : (7 : ℕ) ≤ 255))

/-! ## C6 — sample index bounds -/

/-- C6.  Every sample coordinate is clamped to `[0, width-1] ×
[0, height-1]` and floored before indexing, so the computed buffer index
satisfies `0 ≤ idx` and `idx + 2 < 4·width·height`; the out-of-bounds
case is unreachable.  Proved for every rational sample location, hence
in particular for the five locations in `triSamples`. -/
theorem sample_idx_in_bounds (width height : ℕ) (s : Pt)
    (hw : 1 ≤ width) (hh : 1 ≤ height) :
    0 ≤ sampleIdx width height s ∧
      sampleIdx width height s + 2 < 4 * (width : ℤ) * (height : ℤ) := by
  have hW : (1 : ℤ) ≤ (width : ℤ) := by exact_mod_cast hw
  have hH : (1 : ℤ) ≤ (height : ℤ) := by exact_mod_cast hh
  have hx0 : 0 ≤ clampFloor width s.1 := le_max_left _ _
  have hy0 : 0 ≤ clampFloor height s.2 := le_max_left _ _
  have hx1 : clampFloor width s.1 ≤ (width : ℤ) - 1 := by
    unfold clampFloor
    exact max_le (by omega) (min_le_left _ _)
  have hy1 : clampFloor height s.2 ≤ (height : ℤ) - 1 := by
    unfold clampFloor
    exact max_le (by omega) (min_le_left _ _)
  unfold sampleIdx
  constructor
  · have h1 : 0 ≤ clampFloor height s.2 * (width : ℤ) := mul_nonneg hy0 (by omega)
    nlinarith
  · have h2 : clampFloor height s.2 * (width : ℤ) ≤ ((height : ℤ) - 1) * (width : ℤ) :=
      mul_le_mul_of_nonneg_right hy1 (by omega)
    nlinarith

/-- Witness for C6 at a concrete dimension and sample location. -/
theorem sample_idx_in_bounds_witness :
    0 ≤ sampleIdx 1 1 ((0 : ℚ), (0 : ℚ)) ∧
      sampleIdx 1 1 ((0 : ℚ), (0 : ℚ)) + 2 < 4 * (1 : ℤ) * (1 : ℤ) :=
  sample_idx_in_bounds 1 1 ((0 : ℚ), (0 : ℚ)) (by decide) (by decide)

/-! ## C7 — edge field invariants -/

theorem mem_innerRange {n x : ℕ} : x ∈ innerRange n ↔ 1 ≤ x ∧ x + 1 < n := by
  unfold innerRange
  simp only [List.mem_map, List.mem_range]
  constructor
  · rintro ⟨a, ha, rfl⟩; omega
  · intro hx; exact ⟨x - 1, by omega, by omega⟩

theorem flatIdx_inj {w x x' y y' : ℕ} (hx : x < w) (hx' : x' < w)
    (heq : y * w + x = y' * w + x') : y = y' ∧ x = x' := by
  have hw : 0 < w := by omega
  have h1 : (y * w + x) / w = y := by
    rw [Nat.add_comm, Nat.add_mul_div_right _ _ hw, Nat.div_eq_of_lt hx, Nat.zero_add]
  have h2 : (y' * w + x') / w = y' := by
    rw [Nat.add_comm, Nat.add_mul_div_right _ _ hw, Nat.div_eq_of_lt hx', Nat.zero_add]
  have h3 : (y * w + x) % w = x := by
    rw [Nat.add_comm, Nat.add_mul_mod_self_right, Nat.mod_eq_of_lt hx]
  have h4 : (y' * w + x') % w = x' := by
    rw [Nat.add_comm, Nat.add_mul_mod_self_right, Nat.mod_eq_of_lt hx']
  constructor
  · rw [← h1, ← h2, heq]
  · rw [← h3, ← h4, heq]

theorem sobelRow_nonneg (data : ℕ → ℚ) (w y : ℕ) (l : List ℕ) (arr : ℕ → ℝ)
    (h : ∀ j, 0 ≤ arr j) :
    ∀ j, 0 ≤ (l.foldl
      (fun a x => Function.update a (y * w + x) (sobelGrad data w x y)) arr) j := by
  induction l generalizing arr with
  | nil => exact h
  | cons a t ih =>
    refine ih _ fun j => ?_
    show 0 ≤ Function.update arr (y * w + a) (sobelGrad data w a y) j
    rw [Function.update_apply]
    split
    · exact Real.sqrt_nonneg _
    · exact h j

theorem sobelData_nonneg (data : ℕ → ℚ) (w ht : ℕ) : ∀ i, 0 ≤ sobelData data w ht i := by
  have hgen : ∀ (l : List ℕ) (arr : ℕ → ℝ), (∀ j, 0 ≤ arr j) →
      ∀ j, 0 ≤ (l.foldl (fun a y => (innerRange w).foldl
        (fun a x => Function.update a (y * w + x) (sobelGrad data w x y)) a) arr) j := by
    intro l
    induction l with
    | nil => intro arr ha j; exact ha j
    | cons b t ih =>
      intro arr ha j
      exact ih _ (sobelRow_nonneg data w b _ arr ha) j
  exact fun i => hgen (innerRange ht) _ (fun _ => le_refl 0) i

theorem sobelRow_apply_ne (data : ℕ → ℚ) (w y : ℕ) (l : List ℕ) (arr : ℕ → ℝ) (i : ℕ)
    (hne : ∀ x ∈ l, y * w + x ≠ i) :
    (l.foldl (fun a x => Function.update a (y * w + x) (sobelGrad data w x y)) arr) i =
      arr i := by
  induction l generalizing arr with
  | nil => rfl
  | cons b t ih =>
    rw [List.foldl_cons, ih _ fun x hx => hne x (List.mem_cons_of_mem b hx),
      Function.update_apply, if_neg (Ne.symm (hne b (List.mem_cons_self b t)))]

theorem sobelData_apply_ne (data : ℕ → ℚ) (w ht i : ℕ)
    (hne : ∀ y ∈ innerRange ht, ∀ x ∈ innerRange w, y * w + x ≠ i) :
    sobelData data w ht i = 0 := by
  have hgen : ∀ (l : List ℕ) (arr : ℕ → ℝ), (∀ y ∈ l, ∀ x ∈ innerRange w, y * w + x ≠ i) →
      (l.foldl (fun a y => (innerRange w).foldl
        (fun a x => Function.update a (y * w + x) (sobelGrad data w x y)) a) arr) i =
      arr i := by
    intro l
    induction l with
    | nil => intro arr _; rfl
    | cons b t ih =>
      intro arr ha
      rw [List.foldl_cons, ih _ fun y hy => ha y (List.mem_cons_of_mem b hy),
        sobelRow_apply_ne data w b _ arr i (ha b (List.mem_cons_self b t))]
  exact hgen (innerRange ht) _ hne

/-- C7.  Every value stored in the Sobel edge field is non-negative, and
every border pixel (row 0, column 0, last row, last column) holds
exactly zero. -/
theorem sobel_nonneg_and_border_zero (data : ℕ → ℚ) (w ht : ℕ) :
    (∀ i, 0 ≤ sobelData data w ht i) ∧
      (∀ x y, x < w → y < ht → (x = 0 ∨ y = 0 ∨ x = w - 1 ∨ y = ht - 1) →
        sobelData data w ht (y * w + x) = 0) := by
  refine ⟨sobelData_nonneg data w ht, fun x y hx hy hb => ?_⟩
  apply sobelData_apply_ne
  intro y' hy' x' hx' heq
  rw [mem_innerRange] at hy' hx'
  have hxw : x' < w := by omega
  obtain ⟨hyy, hxx⟩ := flatIdx_inj hxw hx heq
  omega

/-- Witness for C7 at a concrete buffer and dimensions, instantiated at
index `4` (the center) and at the border pixel `(0, 2)` of a `3 × 3`
field. -/
theorem sobel_nonneg_and_border_zero_witness :
    0 ≤ sobelData (fun _ => 0) 3 3 4 ∧ sobelData (fun _ => 0) 3 3 (2 * 3 + 0) = 0 :=
  ⟨(sobel_nonneg_and_border_zero (fun _ => 0) 3 3).1 4,
    (sobel_nonneg_and_border_zero (fun _ => 0) 3 3).2 0 2 (by decide) (by decide)
      (by decide)⟩

/-! ## C8 — phase-local progress is in the unit interval -/

/-- Whatever progress value a tick computes lies in `[0, 1]`. -/
def progressInUnit (o : Option ℚ) : Prop := ∀ p, o = some p → 0 ≤ p ∧ p ≤ 1

/-- The progress field of a tick, characterized by the phase dispatch
alone. -/
theorem animTick_progress (speed : ℚ) (himg hsobel : Bool) (pts : List Pt)
    (tris : List ColoredTri) (elapsed : ℚ) :
    (animTick speed himg hsobel pts tris elapsed).progress =
      if elapsed < 1500 / speed then none
      else if elapsed < 1500 / speed + 2000 / speed then
        some (min 1 ((elapsed - 1500 / speed) / (2000 / speed)))
      else if elapsed < 1500 / speed + 2000 / speed + 2000 / speed then
        some (min 1 ((elapsed - (1500 / speed + 2000 / speed)) / (2000 / speed)))
      else if elapsed < 1500 / speed + 2000 / speed + 2000 / speed + 2500 / speed then
        some (min 1 ((elapsed - (1500 / speed + 2000 / speed + 2000 / speed)) / (2500 / speed)))
      else if elapsed <
          1500 / speed + 2000 / speed + 2000 / speed + 2500 / speed + 2500 / speed then
        some (min 1 ((elapsed -
          (1500 / speed + 2000 / speed + 2000 / speed + 2500 / speed)) / (2500 / speed)))
      else if elapsed < totalDuration speed then
        some (min 1 ((elapsed - (1500 / speed + 2000 / speed + 2000 / speed + 2500 / speed +
          2500 / speed)) / (2000 / speed)))
      else none := by
  simp only [animTick]
  split_ifs <;> rfl

/-- C8.  On every tick, in every phase, the computed phase-local
progress value `min(1, phaseElapsed / phaseDuration)` lies in `[0, 1]`:
the branch conditions guarantee `phaseElapsed ≥ 0`, and the `min` caps
it at `1`. -/
theorem anim_progress_unit (speed : ℚ) (himg hsobel : Bool) (pts : List Pt)
    (tris : List ColoredTri) (elapsed : ℚ) (hs : 0 < speed) (he : 0 ≤ elapsed) :
    progressInUnit (animTick speed himg hsobel pts tris elapsed).progress := by
  have hb : 0 < 2000 / speed := div_pos (by norm_num) hs
  have hc : 0 < 2500 / speed := div_pos (by norm_num) hs
  intro p hp
  rw [animTick_progress] at hp
  split_ifs at hp with h1 h2 h3 h4 h5 h6 <;>
    first
      | exact Option.noConfusion hp
      | · rw [Option.some_inj] at hp
          subst hp
          exact ⟨le_min (by norm_num)
            (div_nonneg (by linarith) (div_pos (by norm_num) hs).le), min_le_left _ _⟩

/-- Witness for C8 at a concrete speed and elapsed time. -/
theorem anim_progress_unit_witness :
    progressInUnit (animTick 1 false false [] [] 2000).progress :=
  anim_progress_unit 1 false false [] [] 2000 (by decide) (by decide)

/-! ## C9 — the Complete phase is terminal and absorbing -/

/-- Any tick whose elapsed time reaches the total duration lands in the
terminal branch and produces the terminal frame without rescheduling. -/
theorem animTick_complete (speed : ℚ) (himg hsobel : Bool) (pts : List Pt)
    (tris : List ColoredTri) (e : ℚ) (hs : 0 < speed) (he : totalDuration speed ≤ e) :
    animTick speed himg hsobel pts tris e =
      { status := "완성", cmds := completeFrame tris, progress := none,
        requestNext := false } := by
  have ha : 0 < 1500 / speed := div_pos (by norm_num) hs
  have hb : 0 < 2000 / speed := div_pos (by norm_num) hs
  have hc : 0 < 2500 / speed := div_pos (by norm_num) hs
  have he' : 1500 / speed + 2000 / speed + 2000 / speed + 2500 / speed + 2500 / speed +
      2000 / speed ≤ e := by unfold totalDuration at he; exact he
  simp only [animTick]
  rw [if_neg (show ¬e < 1500 / speed from by linarith),
    if_neg (show ¬e < 1500 / speed + 2000 / speed from by linarith),
    if_neg (show ¬e < 1500 / speed + 2000 / speed + 2000 / speed from by linarith),
    if_neg (show ¬e < 1500 / speed + 2000 / speed + 2000 / speed + 2500 / speed from by
      linarith),
    if_neg (show ¬e < 1500 / speed + 2000 / speed + 2000 / speed + 2500 / speed +
      2500 / speed from by linarith),
    if_neg (not_lt.mpr he)]

/-- C9.  The Complete phase is terminal and absorbing: on any tick with
`elapsed ≥ totalDuration` the sequencer renders the final filled mesh
(every triangle filled and stroked with its own color on a white
background), does not request another frame, and any further such tick
produces the identical terminal output. -/
theorem complete_phase_absorbing (speed : ℚ) (himg hsobel : Bool) (pts : List Pt)
    (tris : List ColoredTri) (e e2 : ℚ) (hs : 0 < speed)
    (he : totalDuration speed ≤ e) (he2 : totalDuration speed ≤ e2) :
    animTick speed himg hsobel pts tris e =
      { status := "완성", cmds := completeFrame tris, progress := none,
        requestNext := false } ∧
    (animTick speed himg hsobel pts tris e).requestNext = false ∧
    animTick speed himg hsobel pts tris e = animTick speed himg hsobel pts tris e2 := by
  have h1 := animTick_complete speed himg hsobel pts tris e hs he
  have h2 := animTick_complete speed himg hsobel pts tris e2 hs he2
  exact ⟨h1, by rw [h1], h1.trans h2.symm⟩

theorem totalDuration_one_le : totalDuration 1 ≤ 13000 := by
  norm_num [totalDuration]

theorem totalDuration_one_le2 : totalDuration 1 ≤ 20000 := by
  norm_num [totalDuration]

/-- Witness for C9 at concrete speed and two post-completion times. -/
theorem complete_phase_absorbing_witness :
    animTick 1 false false [] [] 13000 =
      { status := "완성", cmds := completeFrame [], progress := none,
        requestNext := false } ∧
    (animTick 1 false false [] [] 13000).requestNext = false ∧
    animTick 1 false false [] [] 13000 = animTick 1 false false [] [] 20000 :=
  complete_phase_absorbing 1 false false [] [] 13000 20000 (by decide)
    totalDuration_one_le totalDuration_one_le2

/-! ## C3 — deduplication and point separation -/

/-- Two coordinates that collide under `toFixed(1)` are strictly closer
than `0.1`. -/
theorem fixed1_close (x y : ℚ) (h : fixed1 x = fixed1 y) : |x - y| < 1 / 10 := by
  have h1 : ((fixed1 x : ℤ) : ℚ) ≤ 10 * x + 1 / 2 := Int.floor_le _
  have h2 : 10 * x + 1 / 2 < ((fixed1 x : ℤ) : ℚ) + 1 := Int.lt_floor_add_one _
  have h3 : ((fixed1 y : ℤ) : ℚ) ≤ 10 * y + 1 / 2 := Int.floor_le _
  have h4 : 10 * y + 1 / 2 < ((fixed1 y : ℤ) : ℚ) + 1 := Int.lt_floor_add_one _
  rw [h] at h1 h2
  rw [abs_sub_lt_iff]
  constructor <;> linarith

/-- Counterexample to C3: the points `(0.05, 0.05)` and `(0.14, 0.14)`
are at Euclidean separation `≥ 0.1` (their squared distance is
`0.0162 ≥ 0.01`), yet they share the deduplication key `(1, 1)`
(`toFixed(1)` gives `"0.1"` for both coordinates), so the second
insertion is dropped: only one point is stored. -/
theorem dedup_merge_counterexample :
    1 / 100 ≤ dist2 ((1 / 20 : ℚ), (1 / 20 : ℚ)) ((7 / 50 : ℚ), (7 / 50 : ℚ)) ∧
    pointKey ((1 / 20 : ℚ), (1 / 20 : ℚ)) = pointKey ((7 / 50 : ℚ), (7 / 50 : ℚ)) ∧
    (addPoint (addPoint ⟨[], []⟩ ((1 / 20 : ℚ), (1 / 20 : ℚ)))
        ((7 / 50 : ℚ), (7 / 50 : ℚ))).points = [((1 / 20 : ℚ), (1 / 20 : ℚ))] := by
  have hk1 : fixed1 (1 / 20 : ℚ) = 1 := by unfold fixed1; norm_num
  have hk2 : fixed1 (7 / 50 : ℚ) = 1 := by unfold fixed1; norm_num
  have hkey : pointKey ((1 / 20 : ℚ), (1 / 20 : ℚ)) = pointKey ((7 / 50 : ℚ), (7 / 50 : ℚ)) := by
    unfold pointKey
    rw [hk1, hk2]
  refine ⟨by unfold dist2; norm_num, hkey, ?_⟩
  unfold addPoint
  rw [if_neg (List.not_mem_nil _)]
  rw [if_pos (by rw [← hkey]; exact List.mem_singleton.mpr rfl)]
  rfl

/-- C3 amended: two insertions whose coordinates differ by at least
`0.1` in at least one coordinate (rather than in Euclidean distance)
never share a deduplication key, so inserting both (into a state holding
neither key) stores both. -/
theorem dedup_far_points_kept (st : PtState) (p q : Pt)
    (hsep : 1 / 10 ≤ |p.1 - q.1| ∨ 1 / 10 ≤ |p.2 - q.2|)
    (hp : pointKey p ∉ st.keys) (hq : pointKey q ∉ st.keys) :
    pointKey p ≠ pointKey q ∧
      p ∈ (addPoint (addPoint st p) q).points ∧
      q ∈ (addPoint (addPoint st p) q).points := by
  have hne : pointKey p ≠ pointKey q := by
    intro h
    unfold pointKey at h
    have h1 := congrArg Prod.fst h
    have h2 := congrArg Prod.snd h
    simp only [] at h1 h2
    rcases hsep with hx | hy
    · exact absurd (fixed1_close p.1 q.1 h1) (not_lt.mpr hx)
    · exact absurd (fixed1_close p.2 q.2 h2) (not_lt.mpr hy)
  have hstep1 : addPoint st p = ⟨st.keys ++ [pointKey p], st.points ++ [p]⟩ := by
    unfold addPoint
    rw [if_neg hp]
  have hq2 : pointKey q ∉ st.keys ++ [pointKey p] := by
    rw [List.mem_append]
    rintro (h | h)
    · exact hq h
    · exact hne (List.mem_singleton.mp h).symm
  have hstep2 : addPoint (addPoint st p) q =
      ⟨st.keys ++ [pointKey p] ++ [pointKey q], st.points ++ [p] ++ [q]⟩ := by
    rw [hstep1]
    unfold addPoint
    rw [if_neg hq2]
  refine ⟨hne, ?_, ?_⟩
  · rw [hstep2]
    simp
  · rw [hstep2]
    simp

theorem sep_term_example : 1 / 10 ≤ |((0 : ℚ)) - 1| := by norm_num

/-- Witness for the amended C3 at two concrete far-apart points. -/
theorem dedup_far_points_kept_witness :
    pointKey ((0 : ℚ), (0 : ℚ)) ≠ pointKey ((1 : ℚ), (0 : ℚ)) ∧
      ((0 : ℚ), (0 : ℚ)) ∈ (addPoint (addPoint ⟨[], []⟩ ((0 : ℚ), (0 : ℚ)))
        ((1 : ℚ), (0 : ℚ))).points ∧
      ((1 : ℚ), (0 : ℚ)) ∈ (addPoint (addPoint ⟨[], []⟩ ((0 : ℚ), (0 : ℚ)))
        ((1 : ℚ), (0 : ℚ))).points :=
  dedup_far_points_kept ⟨[], []⟩ ((0 : ℚ), (0 : ℚ)) ((1 : ℚ), (0 : ℚ))
    (Or.inl sep_term_example) (List.not_mem_nil _) (List.not_mem_nil _)

/-! ## C4 — border lattice spacing -/

theorem fixed1_natCast (n : ℕ) : fixed1 (n : ℚ) = 10 * n := by
  unfold fixed1
  rw [show (10 : ℚ) * (n : ℚ) + 1 / 2 = ((10 * n : ℤ) : ℚ) + 1 / 2 by push_cast; ring,
    Int.floor_int_add]
  norm_num

/-- Every stored point comes from the initial state or from the
insertion sequence. -/
theorem mem_of_mem_foldl_addPoint (xs : List Pt) (st : PtState) (p : Pt)
    (h : p ∈ (xs.foldl addPoint st).points) : p ∈ st.points ∨ p ∈ xs := by
  induction xs generalizing st with
  | nil => exact Or.inl h
  | cons a t ih =>
    rcases ih (addPoint st a) h with h' | h'
    · unfold addPoint at h'
      split at h'
      · exact Or.inl h'
      · rcases List.mem_append.mp h' with h'' | h''
        · exact Or.inl h''
        · exact Or.inr (List.mem_singleton.mp h'' ▸ List.mem_cons_self a t)
    · exact Or.inr (List.mem_cons_of_mem a h')

theorem borderStep_ge_ten (quality : ℚ) : 10 ≤ (borderStep quality).toNat := by
  have h : (10 : ℤ) ≤ borderStep quality := le_max_left _ _
  omega

theorem mem_loopIdx (limit s x : ℕ) (hs : 0 < s) :
    x ∈ loopIdx limit s ↔ ∃ k : ℕ, x = k * s ∧ x ≤ limit := by
  unfold loopIdx
  simp only [List.mem_map, List.mem_range]
  constructor
  · rintro ⟨k, hk, rfl⟩
    exact ⟨k, rfl, (Nat.le_div_iff_mul_le hs).mp (by omega)⟩
  · rintro ⟨k, rfl, hle⟩
    exact ⟨k, by have := (Nat.le_div_iff_mul_le hs).mpr hle; omega, rfl⟩

/-- Membership characterization of the border-lattice insertion calls:
exactly the multiples of the step `max(10, floor(100 − 90·q))` that fit
the image, placed on the four edges. -/
theorem mem_latticeCalls (w h : ℕ) (quality : ℚ) (p : Pt) :
    p ∈ latticeCalls w h quality ↔
      (∃ k : ℕ, k * (borderStep quality).toNat ≤ w ∧
        (p = (((k * (borderStep quality).toNat : ℕ) : ℚ), 0) ∨
          p = (((k * (borderStep quality).toNat : ℕ) : ℚ), (h : ℚ)))) ∨
      (∃ k : ℕ, k * (borderStep quality).toNat ≤ h ∧
        (p = (0, ((k * (borderStep quality).toNat : ℕ) : ℚ)) ∨
          p = ((w : ℚ), ((k * (borderStep quality).toNat : ℕ) : ℚ)))) := by
  have hs : 0 < (borderStep quality).toNat := by
    have := borderStep_ge_ten quality
    omega
  simp only [latticeCalls, List.mem_append, List.mem_flatMap, mem_loopIdx _ _ _ hs,
    List.mem_cons, List.mem_singleton, List.not_mem_nil, or_false]
  constructor
  · rintro (⟨i, ⟨k, rfl, hle⟩, hp⟩ | ⟨i, ⟨k, rfl, hle⟩, hp⟩)
    · exact Or.inl ⟨k, hle, hp⟩
    · exact Or.inr ⟨k, hle, hp⟩
  · rintro (⟨k, hle, hp⟩ | ⟨k, hle, hp⟩)
    · exact Or.inl ⟨k * (borderStep quality).toNat, ⟨k, rfl, hle⟩, hp⟩
    · exact Or.inr ⟨k * (borderStep quality).toNat, ⟨k, rfl, hle⟩, hp⟩

/-- Counterexample to C4: at `quality = 5` (`q = 0.05`) the code's
spacing is `max(10, floor(100 − 4.5)) = 95`, while the claim's formula
`max(10, round(100 − 90q)) = round(95.5) = 96`; on a `100 × 100` image
the claimed lattice contains the point `(96, 0)` but the sampler's point
list does not (its lattice points sit at multiples of `95`). -/
theorem border_lattice_round_counterexample :
    borderStep 5 = 95 ∧
    max 10 (specRound (100 - 90 * ((5 : ℚ) / 100))) = 96 ∧
    ((96 : ℚ), (0 : ℚ)) ∈ specLattice 100 100 5 ∧
    ((96 : ℚ), (0 : ℚ)) ∉ (samplerBase 100 100 5).points := by
  have hb95 : borderStep 5 = 95 := by unfold borderStep; norm_num
  have hs96 : max 10 (specRound (100 - 90 * ((5 : ℚ) / 100))) = 96 := by
    unfold specRound; norm_num
  refine ⟨hb95, hs96, ?_, ?_⟩
  · simp only [specLattice, hs96]
    simp only [loopIdx, show (100 : ℕ) / (96 : ℤ).toNat + 1 = 2 from by decide]
    simp [List.range_succ]
  · intro hmem
    have h05 : (0 : ℚ) < 5 := by norm_num
    rw [samplerBase, if_pos h05] at hmem
    rcases mem_of_mem_foldl_addPoint _ _ _ hmem with hc | hl
    · rcases mem_of_mem_foldl_addPoint _ _ _ hc with h0 | h4
      · exact List.not_mem_nil _ h0
      · simp only [List.mem_cons, List.mem_singleton, List.not_mem_nil, or_false,
          Prod.mk.injEq] at h4
        rcases h4 with ⟨h, _⟩ | ⟨h, _⟩ | ⟨h, _⟩ | ⟨h, _⟩ <;> norm_num at h
    · rw [mem_latticeCalls] at hl
      rw [hb95] at hl
      rcases hl with ⟨k, hle, hp | hp⟩ | ⟨k, hle, hp | hp⟩
      · have h1 : (96 : ℚ) = ((k * (95 : ℤ).toNat : ℕ) : ℚ) := congrArg Prod.fst hp
        have h2 : (96 : ℕ) = k * (95 : ℤ).toNat := by exact_mod_cast h1
        have h3 : (95 : ℤ).toNat = 95 := rfl
        rw [h3] at h2 hle
        omega
      · have h1 : (0 : ℚ) = ((100 : ℕ) : ℚ) := congrArg Prod.snd hp
        norm_num at h1
      · have h1 : (96 : ℚ) = (0 : ℚ) := congrArg Prod.fst hp
        norm_num at h1
      · have h1 : (96 : ℚ) = ((100 : ℕ) : ℚ) := congrArg Prod.fst hp
        norm_num at h1

/-- C4 amended: for `quality > 0` the sampler adds the border lattice
with spacing exactly `max(10, floor(100 − 90q))` (floor, not round) at
multiples of the spacing along all four edges; for `quality ≤ 0` no
lattice is added at all. -/
theorem border_lattice_floor_spacing (w h : ℕ) (quality : ℚ) (p : Pt) :
    (0 < quality → samplerBase w h quality =
      (latticeCalls w h quality).foldl addPoint (cornersState w h)) ∧
    (¬0 < quality → samplerBase w h quality = cornersState w h) ∧
    (p ∈ latticeCalls w h quality ↔
      (∃ k : ℕ, k * (borderStep quality).toNat ≤ w ∧
        (p = (((k * (borderStep quality).toNat : ℕ) : ℚ), 0) ∨
          p = (((k * (borderStep quality).toNat : ℕ) : ℚ), (h : ℚ)))) ∨
      (∃ k : ℕ, k * (borderStep quality).toNat ≤ h ∧
        (p = (0, ((k * (borderStep quality).toNat : ℕ) : ℚ)) ∨
          p = ((w : ℚ), ((k * (borderStep quality).toNat : ℕ) : ℚ))))) := by
  refine ⟨fun hq => ?_, fun hq => ?_, mem_latticeCalls w h quality p⟩
  · rw [samplerBase, if_pos hq]
  · rw [samplerBase, if_neg hq]

/-- Witness for the amended C4 at concrete dimensions and quality. -/
theorem border_lattice_floor_spacing_witness :
    (0 < (50 : ℚ) → samplerBase 20 20 50 =
      (latticeCalls 20 20 50).foldl addPoint (cornersState 20 20)) ∧
    (¬0 < (50 : ℚ) → samplerBase 20 20 50 = cornersState 20 20) ∧
    (((10 : ℚ), (0 : ℚ)) ∈ latticeCalls 20 20 50 ↔
      (∃ k : ℕ, k * (borderStep 50).toNat ≤ 20 ∧
        (((10 : ℚ), (0 : ℚ)) = (((k * (borderStep 50).toNat : ℕ) : ℚ), 0) ∨
          ((10 : ℚ), (0 : ℚ)) = (((k * (borderStep 50).toNat : ℕ) : ℚ), ((20 : ℕ) : ℚ)))) ∨
      (∃ k : ℕ, k * (borderStep 50).toNat ≤ 20 ∧
        (((10 : ℚ), (0 : ℚ)) = (0, ((k * (borderStep 50).toNat : ℕ) : ℚ)) ∨
          ((10 : ℚ), (0 : ℚ)) = (((20 : ℕ) : ℚ), ((k * (borderStep 50).toNat : ℕ) : ℚ))))) :=
  border_lattice_floor_spacing 20 20 50 ((10 : ℚ), (0 : ℚ))

/-! ## C5 — key uniqueness and minimum point count -/

/-- The sampler-state invariant: the key set is exactly the keys of the
stored points, in order, and holds no duplicates. -/
def keysOk (st : PtState) : Prop :=
  st.keys = st.points.map pointKey ∧ st.keys.Nodup

theorem keysOk_addPoint (st : PtState) (p : Pt) (h : keysOk st) : keysOk (addPoint st p) := by
  obtain ⟨hmap, hnd⟩ := h
  unfold addPoint
  split
  · exact ⟨hmap, hnd⟩
  · rename_i hN
    constructor
    · rw [List.map_append, hmap]
      rfl
    · rw [List.nodup_append]
      exact ⟨hnd, List.nodup_singleton _, fun a ha hb =>
        hN ((List.mem_singleton.mp hb) ▸ ha)⟩

theorem keysOk_foldl (xs : List Pt) (st : PtState) (h : keysOk st) :
    keysOk (xs.foldl addPoint st) := by
  induction xs generalizing st with
  | nil => exact h
  | cons a t ih => exact ih _ (keysOk_addPoint st a h)

theorem keysOk_refineTri (width height : ℕ) (acc : PtState × ℕ) (t : ℕ × ℕ × ℕ)
    (h : keysOk acc.1) : keysOk (refineTri width height acc t).1 := by
  obtain ⟨hmap, hnd⟩ := h
  unfold refineTri
  split
  · split
    · split
      · exact ⟨hmap, hnd⟩
      · rename_i hN
        constructor
        · rw [List.map_append, hmap]
          rfl
        · rw [List.nodup_append]
          exact ⟨hnd, List.nodup_singleton _, fun a ha hb =>
            hN ((List.mem_singleton.mp hb) ▸ ha)⟩
    · exact ⟨hmap, hnd⟩
  · exact ⟨hmap, hnd⟩

theorem keysOk_refineChunks (width height : ℕ) (l : List (ℕ × ℕ × ℕ)) (acc : PtState × ℕ)
    (h : keysOk acc.1) : keysOk (l.foldl (refineTri width height) acc).1 := by
  induction l generalizing acc with
  | nil => exact h
  | cons a t ih => exact ih _ (keysOk_refineTri width height acc a h)

theorem keysOk_refineLoop (width height : ℕ) (T : List Pt → List ℕ) (n : ℕ) (st : PtState)
    (h : keysOk st) : keysOk (refineLoop width height T n st) := by
  induction n generalizing st with
  | zero => exact h
  | succ m ih =>
    unfold refineLoop
    show keysOk (if (refinePass width height (T st.points) st).2 = 0 then
      (refinePass width height (T st.points) st).1
      else refineLoop width height T m (refinePass width height (T st.points) st).1)
    split
    · exact keysOk_refineChunks width height _ _ h
    · exact ih _ (keysOk_refineChunks width height _ _ h)

theorem fixed1_zero : fixed1 (0 : ℚ) = 0 := by unfold fixed1; norm_num

/-- For `width, height ≥ 1` the four corner insertions are pairwise
distinct under the key, so all four are stored. -/
theorem cornersState_eq (w h : ℕ) (hw : 1 ≤ w) (hh : 1 ≤ h) :
    cornersState w h = ⟨[((0 : ℤ), (0 : ℤ)), (10 * w, 0), (0, 10 * h), (10 * w, 10 * h)],
      [((0 : ℚ), (0 : ℚ)), ((w : ℚ), 0), (0, (h : ℚ)), ((w : ℚ), (h : ℚ))]⟩ := by
  have hw' : ¬(10 * (w : ℤ) = 0) := by omega
  have hh' : ¬(10 * (h : ℤ) = 0) := by omega
  unfold cornersState
  simp only [List.foldl_cons, List.foldl_nil]
  rw [show addPoint ⟨[], []⟩ ((0 : ℚ), (0 : ℚ)) = ⟨[((0 : ℤ), (0 : ℤ))], [((0 : ℚ), (0 : ℚ))]⟩
    from by unfold addPoint pointKey; rw [if_neg (List.not_mem_nil _)]; simp [fixed1_zero]]
  rw [show addPoint ⟨[((0 : ℤ), (0 : ℤ))], [((0 : ℚ), (0 : ℚ))]⟩ ((w : ℚ), 0) =
      ⟨[((0 : ℤ), (0 : ℤ)), (10 * w, 0)], [((0 : ℚ), (0 : ℚ)), ((w : ℚ), 0)]⟩ from by
    unfold addPoint pointKey
    rw [if_neg]
    · simp [fixed1_zero, fixed1_natCast]
    · simp only [fixed1_zero, fixed1_natCast, List.mem_singleton, Prod.mk.injEq]
      intro hcon
      exact hw' hcon.1]
  rw [show addPoint ⟨[((0 : ℤ), (0 : ℤ)), (10 * w, 0)], [((0 : ℚ), (0 : ℚ)), ((w : ℚ), 0)]⟩
      (0, (h : ℚ)) = ⟨[((0 : ℤ), (0 : ℤ)), (10 * w, 0), (0, 10 * h)],
        [((0 : ℚ), (0 : ℚ)), ((w : ℚ), 0), (0, (h : ℚ))]⟩ from by
    unfold addPoint pointKey
    rw [if_neg]
    · simp [fixed1_zero, fixed1_natCast]
    · simp only [fixed1_zero, fixed1_natCast, List.mem_cons, List.mem_singleton,
        List.not_mem_nil, or_false, Prod.mk.injEq]
      rintro (⟨_, hcon⟩ | ⟨hcon, _⟩)
      · exact hh' hcon
      · exact hw' hcon.symm]
  rw [show addPoint ⟨[((0 : ℤ), (0 : ℤ)), (10 * w, 0), (0, 10 * h)],
      [((0 : ℚ), (0 : ℚ)), ((w : ℚ), 0), (0, (h : ℚ))]⟩ ((w : ℚ), (h : ℚ)) =
      ⟨[((0 : ℤ), (0 : ℤ)), (10 * w, 0), (0, 10 * h), (10 * w, 10 * h)],
        [((0 : ℚ), (0 : ℚ)), ((w : ℚ), 0), (0, (h : ℚ)), ((w : ℚ), (h : ℚ))]⟩ from by
    unfold addPoint pointKey
    rw [if_neg]
    · simp [fixed1_natCast]
    · simp only [fixed1_natCast, List.mem_cons, List.mem_singleton, List.not_mem_nil,
        or_false, Prod.mk.injEq]
      rintro (⟨hcon, _⟩ | ⟨_, hcon⟩ | ⟨hcon, _⟩)
      · exact hw' hcon
      · exact hh' hcon
      · exact hw' hcon]

theorem foldl_addPoint_length (xs : List Pt) (st : PtState) :
    st.points.length ≤ (xs.foldl addPoint st).points.length := by
  induction xs generalizing st with
  | nil => exact le_refl _
  | cons a t ih =>
    refine le_trans ?_ (ih (addPoint st a))
    unfold addPoint
    split
    · exact le_refl _
    · simp

theorem refineTri_points_append (width height : ℕ) (acc : PtState × ℕ) (t : ℕ × ℕ × ℕ) :
    ∃ u, (refineTri width height acc t).1.points = acc.1.points ++ u := by
  unfold refineTri
  split
  · split
    · split
      · exact ⟨[], (List.append_nil _).symm⟩
      · exact ⟨_, rfl⟩
    · exact ⟨[], (List.append_nil _).symm⟩
  · exact ⟨[], (List.append_nil _).symm⟩

theorem refineChunks_points_append (width height : ℕ) (l : List (ℕ × ℕ × ℕ))
    (acc : PtState × ℕ) :
    ∃ u, (l.foldl (refineTri width height) acc).1.points = acc.1.points ++ u := by
  induction l generalizing acc with
  | nil => exact ⟨[], (List.append_nil _).symm⟩
  | cons a t ih =>
    obtain ⟨u1, hu1⟩ := refineTri_points_append width height acc a
    obtain ⟨u2, hu2⟩ := ih (refineTri width height acc a)
    exact ⟨u1 ++ u2, by rw [List.foldl_cons, hu2, hu1, List.append_assoc]⟩

theorem refineLoop_points_append (width height : ℕ) (T : List Pt → List ℕ) (n : ℕ)
    (st : PtState) :
    ∃ u, (refineLoop width height T n st).points = st.points ++ u := by
  induction n generalizing st with
  | zero => exact ⟨[], (List.append_nil _).symm⟩
  | succ m ih =>
    unfold refineLoop
    show ∃ u, (if (refinePass width height (T st.points) st).2 = 0 then
      (refinePass width height (T st.points) st).1
      else refineLoop width height T m
        (refinePass width height (T st.points) st).1).points = st.points ++ u
    split
    · exact refineChunks_points_append width height _ _
    · obtain ⟨u1, hu1⟩ :=
        refineChunks_points_append width height (triChunks (T st.points)) (st, 0)
      obtain ⟨u2, hu2⟩ := ih (refinePass width height (T st.points) st).1
      refine ⟨u1 ++ u2, ?_⟩
      rw [hu2]
      unfold refinePass
      rw [hu1, List.append_assoc]

/-- Counterexample to C5: on a degenerate `0 × 0` image all four corner
insertions share the key `(0, 0)`, so the sampler stores a single point
and the point count is `1 < 4`. -/
theorem corner_count_counterexample :
    (samplerBase 0 0 0).points = [((0 : ℚ), (0 : ℚ))] ∧
      ¬4 ≤ (samplerBase 0 0 0).points.length := by
  have hbase : samplerBase 0 0 0 = cornersState 0 0 := by
    unfold samplerBase
    rw [if_neg (lt_irrefl 0)]
  have hc : cornersState 0 0 = ⟨[((0 : ℤ), (0 : ℤ))], [((0 : ℚ), (0 : ℚ))]⟩ := by
    unfold cornersState
    simp only [Nat.cast_zero, List.foldl_cons, List.foldl_nil]
    rw [show addPoint ⟨[], []⟩ ((0 : ℚ), (0 : ℚ)) =
        ⟨[((0 : ℤ), (0 : ℤ))], [((0 : ℚ), (0 : ℚ))]⟩ from by
      unfold addPoint pointKey
      rw [if_neg (List.not_mem_nil _)]
      simp [fixed1_zero]]
    rw [show addPoint ⟨[((0 : ℤ), (0 : ℤ))], [((0 : ℚ), (0 : ℚ))]⟩ ((0 : ℚ), (0 : ℚ)) =
        ⟨[((0 : ℤ), (0 : ℤ))], [((0 : ℚ), (0 : ℚ))]⟩ from by
      unfold addPoint pointKey
      rw [if_pos (by simp [fixed1_zero])],
      show addPoint ⟨[((0 : ℤ), (0 : ℤ))], [((0 : ℚ), (0 : ℚ))]⟩ ((0 : ℚ), (0 : ℚ)) =
        ⟨[((0 : ℤ), (0 : ℤ))], [((0 : ℚ), (0 : ℚ))]⟩ from by
      unfold addPoint pointKey
      rw [if_pos (by simp [fixed1_zero])],
      show addPoint ⟨[((0 : ℤ), (0 : ℤ))], [((0 : ℚ), (0 : ℚ))]⟩ ((0 : ℚ), (0 : ℚ)) =
        ⟨[((0 : ℤ), (0 : ℤ))], [((0 : ℚ), (0 : ℚ))]⟩ from by
      unfold addPoint pointKey
      rw [if_pos (by simp [fixed1_zero])]]
  rw [hbase, hc]
  exact ⟨rfl, by simp⟩

/-- C5 amended: for every insertion sequence and every refinement run,
no two stored points share a deduplication key; and when `width ≥ 1` and
`height ≥ 1` the point count is at least `4` because the four corners
are inserted first (on a degenerate `0-sized` image the coincident
corners collapse to fewer points). -/
theorem mesh_unique_keys_min_count (w h : ℕ) (xs : List Pt) (T : List Pt → List ℕ)
    (n : ℕ) :
    ((refineLoop w h T n (xs.foldl addPoint (cornersState w h))).points.map
      pointKey).Nodup ∧
    (1 ≤ w → 1 ≤ h →
      4 ≤ (refineLoop w h T n (xs.foldl addPoint (cornersState w h))).points.length) := by
  have hcOk : keysOk (cornersState w h) := by
    apply keysOk_foldl
    exact ⟨rfl, List.nodup_nil⟩
  have hOk : keysOk (refineLoop w h T n (xs.foldl addPoint (cornersState w h))) :=
    keysOk_refineLoop w h T n _ (keysOk_foldl xs _ hcOk)
  constructor
  · obtain ⟨hmap, hnd⟩ := hOk
    rw [← hmap]
    exact hnd
  · intro hw hh
    obtain ⟨u, hu⟩ := refineLoop_points_append w h T n (xs.foldl addPoint (cornersState w h))
    rw [hu, List.length_append]
    have h4 : (cornersState w h).points.length = 4 := by
      rw [cornersState_eq w h hw hh]
      rfl
    have hmono := foldl_addPoint_length xs (cornersState w h)
    omega

/-- Witness for the amended C5 at concrete inputs. -/
theorem mesh_unique_keys_min_count_witness :
    ((refineLoop 1 1 (fun _ => []) 2 ([].foldl addPoint (cornersState 1 1))).points.map
      pointKey).Nodup ∧
    (1 ≤ 1 → 1 ≤ 1 →
      4 ≤ (refineLoop 1 1 (fun _ => []) 2
        ([].foldl addPoint (cornersState 1 1))).points.length) :=
  mesh_unique_keys_min_count 1 1 [] (fun _ => []) 2

/-! ## C10 — refinement is append-only on the point list -/

/-- C10.  Refinement never removes, reorders, or modifies existing
points: after any number of passes (and in particular after the full
two-pass `refine`) the resulting point list is the original list with
new midpoints appended at the end. -/
theorem refinement_append_only (width height : ℕ) (T : List Pt → List ℕ) (st : PtState)
    (n : ℕ) :
    (∃ u, (refineLoop width height T n st).points = st.points ++ u) ∧
    (∃ u, (refine width height T st).points = st.points ++ u) :=
  ⟨refineLoop_points_append width height T n st,
    refineLoop_points_append width height T 2 st⟩

/-! ## C2 — refinement pass behavior -/

theorem refineLoop_one (w h : ℕ) (T : List Pt → List ℕ) (s : PtState) :
    refineLoop w h T 1 s = (refinePass w h (T s.points) s).1 := by
  unfold refineLoop
  show (if (refinePass w h (T s.points) s).2 = 0 then (refinePass w h (T s.points) s).1
    else refineLoop w h T 0 (refinePass w h (T s.points) s).1) =
    (refinePass w h (T s.points) s).1
  split
  · rfl
  · rfl

/-- C2.  The refinement loop behaves exactly as claimed: (1) there are
at most two passes, each re-triangulating the whole current point set
through the oracle, and a pass inserting zero points terminates
refinement early; (2) a triangle whose three indices resolve is split
exactly by the condition
`(longestEdge / max(1, shortestEdge) > 4 ∧ area > 50) ∨
area > 0.04·width·height` (with the Heron area clamped at `0`), the
split appending the midpoint of the longest edge guarded by the
deduplication key; (3) the state changes iff the condition holds and the
midpoint's key is fresh. -/
theorem refinement_loop_spec (w h : ℕ) (T : List Pt → List ℕ) (st : PtState)
    (keys : List (ℤ × ℤ)) (pts : List Pt) (added : ℕ) (i j k : ℕ) (p1 p2 p3 : Pt)
    (h1 : pts[i]? = some p1) (h2 : pts[j]? = some p2) (h3 : pts[k]? = some p3) :
    refine w h T st =
      (if (refinePass w h (T st.points) st).2 = 0 then (refinePass w h (T st.points) st).1
        else (refinePass w h (T (refinePass w h (T st.points) st).1.points)
          (refinePass w h (T st.points) st).1).1) ∧
    refineTri w h (⟨keys, pts⟩, added) (i, j, k) =
      (if splitCond w h p1 p2 p3 then
        (if pointKey (longestMid p1 p2 p3) ∈ keys then (⟨keys, pts⟩, added)
          else (⟨keys ++ [pointKey (longestMid p1 p2 p3)],
            pts ++ [longestMid p1 p2 p3]⟩, added + 1))
        else (⟨keys, pts⟩, added)) ∧
    (refineTri w h (⟨keys, pts⟩, added) (i, j, k) ≠ (⟨keys, pts⟩, added) ↔
      splitCond w h p1 p2 p3 ∧ pointKey (longestMid p1 p2 p3) ∉ keys) := by
  have hb : refineTri w h (⟨keys, pts⟩, added) (i, j, k) =
      (if splitCond w h p1 p2 p3 then
        (if pointKey (longestMid p1 p2 p3) ∈ keys then (⟨keys, pts⟩, added)
          else (⟨keys ++ [pointKey (longestMid p1 p2 p3)],
            pts ++ [longestMid p1 p2 p3]⟩, added + 1))
        else (⟨keys, pts⟩, added)) := by
    unfold refineTri
    dsimp only
    rw [h1, h2, h3]
  refine ⟨?_, hb, ?_⟩
  · unfold refine refineLoop
    show (if (refinePass w h (T st.points) st).2 = 0 then (refinePass w h (T st.points) st).1
      else refineLoop w h T 1 (refinePass w h (T st.points) st).1) = _
    rw [refineLoop_one]
  · rw [hb]
    by_cases hc : splitCond w h p1 p2 p3
    · rw [if_pos hc]
      by_cases hk : pointKey (longestMid p1 p2 p3) ∈ keys
      · rw [if_pos hk]
        simp [hc, hk]
      · rw [if_neg hk]
        constructor
        · intro _
          exact ⟨hc, hk⟩
        · intro _ heq
          have := congrArg Prod.snd heq
          simp only [] at this
          omega
    · rw [if_neg hc]
      simp [hc]

/-- Witness for C2 at a concrete state and triangle. -/
theorem refinement_loop_spec_witness :
    refine 3 3 (fun _ => []) ⟨[], []⟩ =
      (if (refinePass 3 3 ((fun _ : List Pt => ([] : List ℕ)) (PtState.mk [] []).points)
            ⟨[], []⟩).2 = 0 then
        (refinePass 3 3 ((fun _ : List Pt => ([] : List ℕ)) (PtState.mk [] []).points)
          ⟨[], []⟩).1
        else (refinePass 3 3 ((fun _ : List Pt => ([] : List ℕ))
            (refinePass 3 3 ((fun _ : List Pt => ([] : List ℕ)) (PtState.mk [] []).points)
              ⟨[], []⟩).1.points)
          (refinePass 3 3 ((fun _ : List Pt => ([] : List ℕ)) (PtState.mk [] []).points)
            ⟨[], []⟩).1).1) ∧
    refineTri 3 3 (⟨[], [((0 : ℚ), (0 : ℚ)), ((1 : ℚ), (0 : ℚ)), ((0 : ℚ), (1 : ℚ))]⟩, 0)
        (0, 1, 2) =
      (if splitCond 3 3 ((0 : ℚ), (0 : ℚ)) ((1 : ℚ), (0 : ℚ)) ((0 : ℚ), (1 : ℚ)) then
        (if pointKey (longestMid ((0 : ℚ), (0 : ℚ)) ((1 : ℚ), (0 : ℚ)) ((0 : ℚ), (1 : ℚ))) ∈
            ([] : List (ℤ × ℤ)) then
          (⟨[], [((0 : ℚ), (0 : ℚ)), ((1 : ℚ), (0 : ℚ)), ((0 : ℚ), (1 : ℚ))]⟩, 0)
          else (⟨[] ++ [pointKey (longestMid ((0 : ℚ), (0 : ℚ)) ((1 : ℚ), (0 : ℚ))
              ((0 : ℚ), (1 : ℚ)))],
            [((0 : ℚ), (0 : ℚ)), ((1 : ℚ), (0 : ℚ)), ((0 : ℚ), (1 : ℚ))] ++
              [longestMid ((0 : ℚ), (0 : ℚ)) ((1 : ℚ), (0 : ℚ)) ((0 : ℚ), (1 : ℚ))]⟩, 0 + 1))
        else (⟨[], [((0 : ℚ), (0 : ℚ)), ((1 : ℚ), (0 : ℚ)), ((0 : ℚ), (1 : ℚ))]⟩, 0)) ∧
    (refineTri 3 3 (⟨[], [((0 : ℚ), (0 : ℚ)), ((1 : ℚ), (0 : ℚ)), ((0 : ℚ), (1 : ℚ))]⟩, 0)
        (0, 1, 2) ≠
        (⟨[], [((0 : ℚ), (0 : ℚ)), ((1 : ℚ), (0 : ℚ)), ((0 : ℚ), (1 : ℚ))]⟩, 0) ↔
      splitCond 3 3 ((0 : ℚ), (0 : ℚ)) ((1 : ℚ), (0 : ℚ)) ((0 : ℚ), (1 : ℚ)) ∧
        pointKey (longestMid ((0 : ℚ), (0 : ℚ)) ((1 : ℚ), (0 : ℚ)) ((0 : ℚ), (1 : ℚ))) ∉
          ([] : List (ℤ × ℤ))) :=
  refinement_loop_spec 3 3 (fun _ => []) ⟨[], []⟩ []
    [((0 : ℚ), (0 : ℚ)), ((1 : ℚ), (0 : ℚ)), ((0 : ℚ), (1 : ℚ))] 0 0 1 2
    ((0 : ℚ), (0 : ℚ)) ((1 : ℚ), (0 : ℚ)) ((0 : ℚ), (1 : ℚ)) rfl rfl rfl

end PolyArt
